import Mathlib

/-!
# Verification of the TACRED data-loader pipeline

Shallow embedding of the batching/preprocessing pipeline of `data/loader.py`
(and the unsorting step of `model/rnn.py`) of the tac-self-attention
repository, together with theorems settling the frozen claims about it.

Conventions:
* Python lists become Lean `List`s; torch `LongTensor` matrices become
  `List (List Int)`.
* Python ints become `Int` (or `Nat` where the value is an index that the
  data format keeps non-negative).
* `np.random.random()` draws are modelled by an oracle argument
  `draws : Nat → ℚ`; the actual library returns values in `[0, 1)`, which is
  reflected by non-negativity hypotheses where needed.
* `math.ceil(math.log(n, 2))` is embedded exactly as `Nat.clog 2 n`.  The
  double-precision computation in CPython agrees with the exact value for
  every `n < 2 * 10 ^ 6` (checked exhaustively), far beyond any sentence
  length the loader can meet, so the exact embedding is faithful.
-/

namespace TacLoader

/-- Modelled from the spec: `constant.PAD_ID`, the padding id of the external
vocabulary module `utils/constant.py` (only `loader.py` and `rnn.py` are given).
`loader.py` line 13 itself sets `PAD = 0` and line 198 builds the mask by
comparing against the literal `0`; no theorem below depends on the value. -/
def PAD_ID : Int := 0

/-- Modelled from the spec: `constant.UNK_ID`, the unknown-token id of the
external vocabulary module `utils/constant.py`.  No theorem below depends on
its value. -/
def UNK_ID : Int := 1

/-- Python `range(a, b)` (step 1) as a list of integers. -/
def pyRange (a b : Int) : List Int :=
  (List.range (b - a).toNat).map (fun (k : Nat) => a + (k : Int))

/-- `get_positions` (loader.py lines 213-215):
`list(range(-start_idx, 0)) + [0]*(end_idx - start_idx + 1) +
list(range(1, length - end_idx))`. -/
def get_positions (start_idx end_idx length : Int) : List Int :=
  pyRange (-start_idx) 0 ++ List.replicate (end_idx - start_idx + 1).toNat 0
    ++ pyRange 1 (length - end_idx)

/-- `math.ceil(math.log(abs(x) + 1, 2))` (loader.py line 121), embedded
exactly: the ceiling of the base-2 logarithm of `|x| + 1`. -/
def log_dist (x : Int) : Int := (Nat.clog 2 (x.natAbs + 1) : Int)

/-- The for-loop of `relativate_word_positions` (loader.py lines 125-131):
negate every element up to (but excluding) the first zero, then copy the
remainder of the list, starting at that zero, unchanged.  When no zero occurs
the loop negates every element. -/
def negate_until_zero : List Int → List Int
  | [] => []
  | e :: rest => if e = 0 then e :: rest else (-e) :: negate_until_zero rest

/-- `relativate_word_positions` (loader.py lines 111-137): logarithmic
compression of a relative-position list.  The final length check (line 134)
only prints a message and does not change the returned list. -/
def relativate_word_positions (positions_list : List Int) : List Int :=
  negate_until_zero (positions_list.map log_dist)

/-! ### Helper lemmas about `get_positions` and the compression loop -/

theorem pyRange_length (a b : Int) : (pyRange a b).length = (b - a).toNat := by
  rw [pyRange, List.length_map, List.length_range]

theorem pyRange_getD (a b : Int) (d : Int) {i : Nat} (hi : i < (b - a).toNat) :
    (pyRange a b).getD i d = a + (i : Int) := by
  have hlen : i < (pyRange a b).length := by rw [pyRange_length]; exact hi
  rw [List.getD_eq_getElem _ _ hlen]
  simp only [pyRange, List.getElem_map, List.getElem_range]

theorem get_positions_length (s e l : Int) (h0 : 0 ≤ s) (hse : s ≤ e)
    (hel : e < l) : (get_positions s e l).length = l.toNat := by
  simp only [get_positions, List.length_append, pyRange_length,
    List.length_replicate]
  omega

theorem get_positions_getD (s e l : Int) (h0 : 0 ≤ s) (hse : s ≤ e)
    (hel : e < l) {i : Nat} (hi : i < l.toNat) :
    (get_positions s e l).getD i 37 =
      if (i : Int) < s then (i : Int) - s
      else if (i : Int) ≤ e then 0 else (i : Int) - e := by
  have hs : (pyRange (-s) 0).length = s.toNat := by
    rw [pyRange_length]; omega
  have hz : (List.replicate (e - s + 1).toNat (0 : Int)).length
      = (e - s + 1).toNat := List.length_replicate ..
  have hAB : (pyRange (-s) 0 ++ List.replicate (e - s + 1).toNat (0 : Int)).length
      = s.toNat + (e - s + 1).toNat := by
    rw [List.length_append, hs, hz]
  rw [get_positions]
  rcases lt_or_le i s.toNat with h1 | h1
  · rw [List.getD_append _ _ _ _ (by omega), List.getD_append _ _ _ _ (by omega),
      pyRange_getD _ _ _ (by omega), if_pos (by omega)]
    omega
  · rcases lt_or_le i (s.toNat + (e - s + 1).toNat) with h2 | h2
    · rw [List.getD_append _ _ _ _ (by omega),
        List.getD_append_right _ _ _ _ (by omega), hs,
        List.getD_eq_getElem _ _ (by omega), List.getElem_replicate,
        if_neg (by omega), if_pos (by omega)]
    · rw [List.getD_append_right _ _ _ _ (by omega), hAB,
        pyRange_getD _ _ _ (by omega), if_neg (by omega), if_neg (by omega)]
      omega

theorem log_dist_eq_zero_iff (x : Int) : log_dist x = 0 ↔ x = 0 := by
  unfold log_dist
  constructor
  · intro h
    by_contra hx
    have h1 : x.natAbs ≠ 0 := Int.natAbs_ne_zero.mpr hx
    have h2 := Nat.clog_pos (show 1 < 2 by omega)
      (show 2 ≤ x.natAbs + 1 by omega)
    omega
  · intro h
    subst h
    simp [Nat.clog_one_right]

theorem negate_until_zero_append (A rest : List Int)
    (hA : ∀ a ∈ A, a ≠ 0) :
    negate_until_zero (A ++ 0 :: rest) = A.map (fun a => -a) ++ 0 :: rest := by
  induction A with
  | nil => simp [negate_until_zero]
  | cons a t ih =>
    have ha : a ≠ 0 := hA a (by simp)
    have ht := ih (fun b hb => hA b (by simp [hb]))
    rw [List.cons_append, negate_until_zero, if_neg ha, ht, List.map_cons,
      List.cons_append]

theorem pyRange_mem (a b x : Int) (hx : x ∈ pyRange a b) : a ≤ x ∧ x < b := by
  simp only [pyRange, List.mem_map, List.mem_range] at hx
  obtain ⟨k, hk, rfl⟩ := hx
  omega

theorem negate_until_zero_length (l : List Int) :
    (negate_until_zero l).length = l.length := by
  induction l with
  | nil => rfl
  | cons e rest ih =>
    rw [negate_until_zero]
    by_cases he : e = 0
    · rw [if_pos he]
    · rw [if_neg he, List.length_cons, List.length_cons, ih]

theorem relativate_split (A B : List Int) (m : Nat)
    (hAneg : ∀ x ∈ A, x < 0) (hBpos : ∀ x ∈ B, 0 < x) :
    relativate_word_positions (A ++ List.replicate (m + 1) 0 ++ B)
      = A.map (fun x => -log_dist x) ++ List.replicate (m + 1) 0
          ++ B.map log_dist := by
  have hld0 : log_dist 0 = 0 := (log_dist_eq_zero_iff 0).mpr rfl
  have hA0 : ∀ a ∈ A.map log_dist, a ≠ 0 := by
    intro a ha
    obtain ⟨x, hx, rfl⟩ := List.mem_map.mp ha
    exact (log_dist_eq_zero_iff x).not.mpr (by have := hAneg x hx; omega)
  rw [relativate_word_positions, List.map_append, List.map_append,
    List.map_replicate, hld0, List.replicate_succ, List.append_assoc,
    List.cons_append, negate_until_zero_append _ _ hA0]
  simp only [List.map_map, List.replicate_succ, List.append_assoc,
    List.cons_append, Function.comp]
  rfl

/-! ### Claim theorems: positions and logarithmic compression -/

/-- C5: for every `0 ≤ start_idx ≤ end_idx < length`, `get_positions` returns a
list of exactly `length` entries whose `i`-th entry is `i - start_idx` when
`i < start_idx`, `0` when `start_idx ≤ i ≤ end_idx`, and `i - end_idx` when
`i > end_idx`. -/
theorem get_positions_spec (s e l : Int) (h0 : 0 ≤ s) (hse : s ≤ e)
    (hel : e < l) :
    (get_positions s e l).length = l.toNat
    ∧ ∀ i : Nat, i < l.toNat →
        (get_positions s e l).getD i 37 =
          if (i : Int) < s then (i : Int) - s
          else if (i : Int) ≤ e then 0 else (i : Int) - e :=
  ⟨get_positions_length s e l h0 hse hel,
   fun _ hi => get_positions_getD s e l h0 hse hel hi⟩

theorem get_positions_spec_witness :
    ((0 : Int) ≤ 1 ∧ (1 : Int) ≤ 2 ∧ (2 : Int) < 4)
    ∧ ((get_positions 1 2 4).length = (4 : Int).toNat
       ∧ ∀ i : Nat, i < (4 : Int).toNat →
          (get_positions 1 2 4).getD i 37 =
            if (i : Int) < 1 then (i : Int) - 1
            else if (i : Int) ≤ 2 then 0 else (i : Int) - 2) :=
  ⟨⟨by decide, by decide, by decide⟩,
   get_positions_spec 1 2 4 (by decide) (by decide) (by decide)⟩

/-- C1: on every position list produced by `get_positions`, the compression
`relativate_word_positions` maps a token at signed position `x` to
`ceil(log2(|x| + 1))` carrying the sign of `x`: entries before the first zero
(the negative ones) become `-ceil(log2(|x| + 1))`, entries from the first zero
onward keep the non-negative value `ceil(log2(|x| + 1))`. -/
theorem relativate_log_compression (s e l : Int) (h0 : 0 ≤ s) (hse : s ≤ e)
    (hel : e < l) :
    relativate_word_positions (get_positions s e l) =
      (get_positions s e l).map
        (fun x => if x < 0 then -log_dist x else log_dist x) := by
  obtain ⟨m, hm⟩ : ∃ m, (e - s + 1).toNat = m + 1 := ⟨(e - s).toNat, by omega⟩
  have hld0 : log_dist 0 = 0 := (log_dist_eq_zero_iff 0).mpr rfl
  have hAneg : ∀ x ∈ pyRange (-s) 0, x < 0 := by
    intro x hx
    have := pyRange_mem _ _ _ hx
    omega
  have hBpos : ∀ x ∈ pyRange 1 (l - e), 0 < x := by
    intro x hx
    have := pyRange_mem _ _ _ hx
    omega
  rw [get_positions, hm, relativate_split _ _ m hAneg hBpos,
    List.map_append, List.map_append]
  congr 1
  · congr 1
    · exact (List.map_congr_left
        (fun x hx => by rw [if_pos (hAneg x hx)])).symm
    · rw [List.map_replicate, if_neg (by omega), hld0]
  · exact (List.map_congr_left (fun x hx => by
      rw [if_neg (by have := hBpos x hx; omega)])).symm

theorem relativate_log_compression_witness :
    ((0 : Int) ≤ 1 ∧ (1 : Int) ≤ 1 ∧ (1 : Int) < 3)
    ∧ relativate_word_positions (get_positions 1 1 3) =
        (get_positions 1 1 3).map
          (fun x => if x < 0 then -log_dist x else log_dist x) :=
  ⟨⟨by decide, by decide, by decide⟩,
   relativate_log_compression 1 1 3 (by decide) (by decide) (by decide)⟩

/-- C10: on every input list containing a zero, `relativate_word_positions`
returns a list of exactly the input's length, so the length-mismatch branch
(the `"Error in positional embeddings!"` print) is unreachable under that
precondition. -/
theorem relativate_length_of_mem_zero (l : List Int) (h : (0 : Int) ∈ l) :
    (relativate_word_positions l).length = l.length := by
  rw [relativate_word_positions, negate_until_zero_length, List.length_map]

theorem relativate_length_of_mem_zero_witness :
    ((0 : Int) ∈ [(-2 : Int), 0, 0, 3]
     ∧ (relativate_word_positions [(-2 : Int), 0, 0, 3]).length
        = [(-2 : Int), 0, 0, 3].length) :=
  ⟨by decide, relativate_length_of_mem_zero [(-2 : Int), 0, 0, 3] (by decide)⟩

/-! ### Batching: the chunking comprehension of `DataLoader.__init__` -/

/-- The batching comprehension of `DataLoader.__init__` (loader.py line 45):
`[data[i:i+batch_size] for i in range(0, len(data), batch_size)]`, and
`__len__` (line 162) returns the length of this list.  A zero step would make
Python's `range` raise `ValueError`; the embedding returns `[]` there and the
theorems assume a positive batch size. -/
def chunk {α : Type u} : List α → Nat → List (List α)
  | _, 0 => []
  | [], _ + 1 => []
  | x :: xs, b + 1 => (x :: xs).take (b + 1) :: chunk ((x :: xs).drop (b + 1)) (b + 1)
termination_by l _ => l.length
decreasing_by simp only [List.length_drop, List.length_cons]; omega

theorem chunk_nil {α : Type u} (bs : Nat) : chunk ([] : List α) bs = [] := by
  cases bs <;> simp [chunk]

theorem chunk_cons {α : Type u} (x : α) (xs : List α) (b : Nat) :
    chunk (x :: xs) (b + 1)
      = (x :: xs).take (b + 1) :: chunk ((x :: xs).drop (b + 1)) (b + 1) := by
  simp [chunk]

theorem chunk_eq_nil_iff {α : Type u} (l : List α) (b : Nat) :
    chunk l (b + 1) = [] ↔ l = [] := by
  cases l with
  | nil => simp [chunk_nil]
  | cons x xs => rw [chunk_cons]; simp

theorem chunk_length {α : Type u} (b : Nat) (data : List α) :
    (chunk data (b + 1)).length = (data.length + b) / (b + 1) := by
  suffices h : ∀ (n : Nat) (l : List α), l.length ≤ n →
      (chunk l (b + 1)).length = (l.length + b) / (b + 1) from
    h data.length data le_rfl
  intro n
  induction n with
  | zero =>
    intro l hl
    have : l = [] := List.eq_nil_of_length_eq_zero (by omega)
    subst this
    simp [chunk_nil, Nat.div_eq_of_lt (show b < b + 1 by omega)]
  | succ n ih =>
    intro l hl
    match l with
    | [] => simp [chunk_nil, Nat.div_eq_of_lt (show b < b + 1 by omega)]
    | x :: xs =>
      rw [chunk_cons, List.length_cons]
      have hdrop : ((x :: xs).drop (b + 1)).length = xs.length - b := by
        rw [List.length_drop, List.length_cons]; omega
      rw [ih _ (by simp only [List.length_cons] at hl; omega), hdrop]
      simp only [List.length_cons]
      have h1 : xs.length + 1 + b = xs.length + (b + 1) := by omega
      rw [h1, Nat.add_div_right _ (show 0 < b + 1 by omega)]
      rcases le_or_lt b xs.length with h2 | h2
      · have : xs.length - b + b = xs.length := by omega
        rw [this]
      · rw [Nat.div_eq_of_lt (show xs.length - b + b < b + 1 by omega),
          Nat.div_eq_of_lt (show xs.length < b + 1 by omega)]

theorem chunk_flatten {α : Type u} (b : Nat) (data : List α) :
    (chunk data (b + 1)).flatten = data := by
  suffices h : ∀ (n : Nat) (l : List α), l.length ≤ n →
      (chunk l (b + 1)).flatten = l from h data.length data le_rfl
  intro n
  induction n with
  | zero =>
    intro l hl
    have : l = [] := List.eq_nil_of_length_eq_zero (by omega)
    subst this
    simp [chunk_nil]
  | succ n ih =>
    intro l hl
    match l with
    | [] => simp [chunk_nil]
    | x :: xs =>
      rw [chunk_cons, List.flatten_cons,
        ih _ (by simp only [List.length_drop, List.length_cons] at hl ⊢; omega),
        List.take_append_drop]

theorem chunk_size_of_not_last {α : Type u} (b : Nat) (data : List α) :
    ∀ i, i + 1 < (chunk data (b + 1)).length →
      ((chunk data (b + 1)).getD i []).length = b + 1 := by
  suffices h : ∀ (n : Nat) (l : List α), l.length ≤ n →
      ∀ i, i + 1 < (chunk l (b + 1)).length →
        ((chunk l (b + 1)).getD i []).length = b + 1 from
    h data.length data le_rfl
  intro n
  induction n with
  | zero =>
    intro l hl i hi
    have : l = [] := List.eq_nil_of_length_eq_zero (by omega)
    subst this
    simp [chunk_nil] at hi
  | succ n ih =>
    intro l hl i hi
    match l with
    | [] => simp [chunk_nil] at hi
    | x :: xs =>
      rw [chunk_cons] at hi ⊢
      match i with
      | 0 =>
        rw [List.length_cons] at hi
        have hc : chunk ((x :: xs).drop (b + 1)) (b + 1) ≠ [] := by
          intro h0
          rw [h0] at hi
          simp at hi
        have hd : (x :: xs).drop (b + 1) ≠ [] := by
          intro h0
          exact hc (by rw [h0, chunk_nil])
        have hlen : b + 1 < (x :: xs).length := by
          by_contra hle
          exact hd (List.drop_eq_nil_of_le (by omega))
        simp only [List.getD_cons_zero, List.length_take]
        omega
      | i + 1 =>
        rw [List.length_cons] at hi
        rw [List.getD_cons_succ]
        refine ih _ ?_ i (by omega)
        simp only [List.length_drop, List.length_cons] at hl ⊢
        omega

theorem chunk_last_size {α : Type u} (b : Nat) (data : List α) (hne : data ≠ []) :
    ((chunk data (b + 1)).getD ((chunk data (b + 1)).length - 1) []).length
      = if data.length % (b + 1) = 0 then b + 1 else data.length % (b + 1) := by
  suffices h : ∀ (n : Nat) (l : List α), l.length ≤ n → l ≠ [] →
      ((chunk l (b + 1)).getD ((chunk l (b + 1)).length - 1) []).length
        = if l.length % (b + 1) = 0 then b + 1 else l.length % (b + 1) from
    h data.length data le_rfl hne
  intro n
  induction n with
  | zero =>
    intro l hl hlne
    have : l = [] := List.eq_nil_of_length_eq_zero (by omega)
    exact absurd this hlne
  | succ n ih =>
    intro l hl hlne
    match l with
    | [] => exact absurd rfl hlne
    | x :: xs =>
      rw [chunk_cons]
      by_cases hd : (x :: xs).drop (b + 1) = []
      · have hlen : (x :: xs).length ≤ b + 1 := by
          have h5 : (x :: xs).length - (b + 1) = 0 := by
            rw [← List.length_drop, hd]
            rfl
          omega
        rw [hd, chunk_nil]
        simp only [List.length_cons, List.length_nil, List.length_take,
          Nat.add_sub_cancel, List.getD_cons_zero] at hlen ⊢
        rcases Nat.lt_or_ge (xs.length + 1) (b + 1) with h2 | h2
        · rw [if_neg (by rw [Nat.mod_eq_of_lt h2]; omega), Nat.mod_eq_of_lt h2]
          omega
        · have h3 : xs.length + 1 = b + 1 := by omega
          rw [h3, if_pos (by simp)]
          omega
      · have hc : chunk ((x :: xs).drop (b + 1)) (b + 1) ≠ [] := by
          intro h0
          exact hd ((chunk_eq_nil_iff _ b).mp h0)
        have hlen : b + 1 < (x :: xs).length := by
          by_contra hle
          exact hd (List.drop_eq_nil_of_le (by omega))
        obtain ⟨c0, cs, hcs⟩ : ∃ c0 cs, chunk ((x :: xs).drop (b + 1)) (b + 1) = c0 :: cs :=
          List.exists_cons_of_ne_nil hc
        have hih := ih ((x :: xs).drop (b + 1))
          (by simp only [List.length_drop, List.length_cons] at hl ⊢; omega) hd
        rw [hcs] at hih ⊢
        simp only [List.length_cons, Nat.add_sub_cancel, List.getD_cons_succ] at hih ⊢
        rw [hih]
        have hmod : ((x :: xs).drop (b + 1)).length % (b + 1)
            = (x :: xs).length % (b + 1) := by
          rw [List.length_drop]
          have h4 : (x :: xs).length = ((x :: xs).length - (b + 1)) + (b + 1) := by
            omega
          conv_rhs => rw [h4]
          rw [Nat.add_mod_right]
        rw [hmod]
        simp only [List.length_cons]

/-- C7: with `0 < batch_size`, the loader chunks its `n` preprocessed examples
into `ceil(n / batch_size)` batches of consecutive examples in order; every
batch except possibly the last holds exactly `batch_size` examples, the last
holds `n mod batch_size` of them when that is nonzero (and `batch_size` when
`batch_size` divides `n`), `len(loader)` is the number of batches, and
concatenating the batches gives back the data: nothing is dropped or
duplicated. -/
theorem chunk_spec {α : Type u} (data : List α) (bs : Nat) (hbs : 0 < bs) :
    (chunk data bs).length = (data.length + bs - 1) / bs
    ∧ (chunk data bs).flatten = data
    ∧ (∀ i, i + 1 < (chunk data bs).length →
        ((chunk data bs).getD i []).length = bs)
    ∧ (data.length % bs ≠ 0 →
        ((chunk data bs).getD ((chunk data bs).length - 1) []).length
          = data.length % bs)
    ∧ (data ≠ [] → data.length % bs = 0 →
        ((chunk data bs).getD ((chunk data bs).length - 1) []).length = bs) := by
  obtain ⟨b, rfl⟩ : ∃ b, bs = b + 1 := ⟨bs - 1, by omega⟩
  refine ⟨?_, chunk_flatten b data, chunk_size_of_not_last b data, ?_, ?_⟩
  · have h1 : data.length + (b + 1) - 1 = data.length + b := by omega
    rw [h1, chunk_length]
  · intro hmod
    have hne : data ≠ [] := by
      intro h0
      rw [h0] at hmod
      simp at hmod
    rw [chunk_last_size b data hne, if_neg hmod]
  · intro hne hmod
    rw [chunk_last_size b data hne, if_pos hmod]

theorem chunk_spec_witness :
    (0 < 2)
    ∧ ((chunk [10, 20, 30] 2).length = ([10, 20, 30].length + 2 - 1) / 2
       ∧ (chunk [10, 20, 30] 2).flatten = [10, 20, 30]
       ∧ (∀ i, i + 1 < (chunk [10, 20, 30] 2).length →
            ((chunk [10, 20, 30] 2).getD i []).length = 2)
       ∧ ([10, 20, 30].length % 2 ≠ 0 →
            ((chunk [10, 20, 30] 2).getD ((chunk [10, 20, 30] 2).length - 1)
                []).length = [10, 20, 30].length % 2)
       ∧ ([10, 20, 30] ≠ [] → [10, 20, 30].length % 2 = 0 →
            ((chunk [10, 20, 30] 2).getD ((chunk [10, 20, 30] 2).length - 1)
                []).length = 2)) :=
  ⟨by decide, chunk_spec [10, 20, 30] 2 (by decide)⟩

/-! ### Padding: `get_long_tensor` -/

/-- `get_long_tensor` (loader.py lines 218-231), with the torch `LongTensor`
matrix as a list of rows.  `token_len` is `max(len(x) for x in tokens_list)`
(a Python `max` over an empty generator raises; the fold then gives `0`, a
case no call site reaches).  The tensor is first filled with `PAD_ID` and row
`i < batch_size` is then overwritten on its first `len(s)` cells with
sequence `i`; every call site passes `batch_size = len(tokens_list)`. -/
def get_long_tensor (tokens_list : List (List Int)) (batch_size : Nat) :
    List (List Int) :=
  let token_len := (tokens_list.map List.length).foldr max 0
  (List.range batch_size).map (fun i =>
    let s := tokens_list.getD i []
    s ++ List.replicate (token_len - s.length) PAD_ID)

theorem le_foldr_max (l : List Nat) (a : Nat) (ha : a ∈ l) :
    a ≤ l.foldr max 0 := by
  induction l with
  | nil => cases ha
  | cons x t ih =>
    rw [List.foldr_cons]
    rcases List.mem_cons.mp ha with rfl | h
    · exact le_max_left ..
    · exact le_trans (ih h) (le_max_right ..)

theorem foldr_max_mem (l : List Nat) (hl : l ≠ []) : l.foldr max 0 ∈ l := by
  induction l with
  | nil => exact absurd rfl hl
  | cons x t ih =>
    cases t with
    | nil => simp
    | cons y ys =>
      rw [List.foldr_cons]
      rcases max_choice x ((y :: ys).foldr max 0) with h1 | h1 <;> rw [h1]
      · exact List.mem_cons_self ..
      · exact List.mem_cons_of_mem _ (ih (by simp))

/-- C3: on a non-empty list of non-empty sequences and `batch_size` equal to
the number of sequences (as at every call site), `get_long_tensor` returns a
`batch_size`-by-`L` matrix, `L` being the maximum sequence length; row `i`
starts with sequence `i` unchanged and its remaining cells all equal
`PAD_ID`; when all sequences have equal length the input comes back
unpadded. -/
theorem get_long_tensor_spec (ts : List (List Int)) (hne : ts ≠ [])
    (hrows : ∀ s ∈ ts, s ≠ []) :
    ((get_long_tensor ts ts.length).length = ts.length)
    ∧ ((ts.map List.length).foldr max 0 ∈ ts.map List.length
       ∧ ∀ s ∈ ts, s.length ≤ (ts.map List.length).foldr max 0)
    ∧ (∀ row ∈ get_long_tensor ts ts.length,
        row.length = (ts.map List.length).foldr max 0)
    ∧ (∀ i, i < ts.length →
        (get_long_tensor ts ts.length).getD i []
          = ts.getD i [] ++ List.replicate
              ((ts.map List.length).foldr max 0 - (ts.getD i []).length)
              PAD_ID)
    ∧ ((∀ s ∈ ts, s.length = (ts.map List.length).foldr max 0) →
        get_long_tensor ts ts.length = ts) := by
  have hmax : ∀ s ∈ ts, s.length ≤ (ts.map List.length).foldr max 0 :=
    fun s hs => le_foldr_max _ _ (List.mem_map_of_mem List.length hs)
  refine ⟨by simp [get_long_tensor], ⟨foldr_max_mem _ (by simpa using hne), hmax⟩,
    ?_, ?_, ?_⟩
  · intro row hrow
    simp only [get_long_tensor, List.mem_map, List.mem_range] at hrow
    obtain ⟨i, hi, rfl⟩ := hrow
    have hget : ts.getD i [] ∈ ts := by
      rw [List.getD_eq_getElem _ _ hi]
      exact List.getElem_mem ..
    rw [List.length_append, List.length_replicate]
    have := hmax _ hget
    omega
  · intro i hi
    rw [List.getD_eq_getElem _ _ (by simp [get_long_tensor]; omega)]
    simp only [get_long_tensor, List.getElem_map, List.getElem_range]
  · intro hall
    refine List.ext_getElem (by simp [get_long_tensor]) ?_
    intro i h1 h2
    have hi : i < ts.length := h2
    simp only [get_long_tensor, List.getElem_map, List.getElem_range]
    have hget : ts.getD i [] ∈ ts := by
      rw [List.getD_eq_getElem _ _ hi]
      exact List.getElem_mem ..
    rw [hall _ hget, Nat.sub_self, List.replicate_zero, List.append_nil,
      List.getD_eq_getElem _ _ hi]

theorem get_long_tensor_spec_witness :
    (([[5], [6, 7]] : List (List Int)) ≠ [] ∧ ∀ s ∈ ([[5], [6, 7]] : List (List Int)), s ≠ [])
    ∧ (((get_long_tensor [[5], [6, 7]] ([[5], [6, 7]] : List (List Int)).length).length
          = ([[5], [6, 7]] : List (List Int)).length)
       ∧ ((([[5], [6, 7]] : List (List Int)).map List.length).foldr max 0
            ∈ ([[5], [6, 7]] : List (List Int)).map List.length
          ∧ ∀ s ∈ ([[5], [6, 7]] : List (List Int)),
              s.length ≤ (([[5], [6, 7]] : List (List Int)).map List.length).foldr max 0)
       ∧ (∀ row ∈ get_long_tensor [[5], [6, 7]] ([[5], [6, 7]] : List (List Int)).length,
            row.length = (([[5], [6, 7]] : List (List Int)).map List.length).foldr max 0)
       ∧ (∀ i, i < ([[5], [6, 7]] : List (List Int)).length →
            (get_long_tensor [[5], [6, 7]] ([[5], [6, 7]] : List (List Int)).length).getD i []
              = ([[5], [6, 7]] : List (List Int)).getD i [] ++ List.replicate
                  ((([[5], [6, 7]] : List (List Int)).map List.length).foldr max 0
                    - (([[5], [6, 7]] : List (List Int)).getD i []).length) PAD_ID)
       ∧ ((∀ s ∈ ([[5], [6, 7]] : List (List Int)),
            s.length = (([[5], [6, 7]] : List (List Int)).map List.length).foldr max 0) →
          get_long_tensor [[5], [6, 7]] ([[5], [6, 7]] : List (List Int)).length
            = [[5], [6, 7]])) :=
  ⟨⟨by decide, by decide⟩, get_long_tensor_spec [[5], [6, 7]] (by decide) (by decide)⟩

/-! ### Span anonymization in `preprocess` -/

/-- Model of Python's `str.lower()`. -/
def pyLower (s : String) : String := s.toLower

/-- Python slice assignment `l[a:b] = r` for non-negative `a`, `b` (the only
form `preprocess` uses): the elements at indices `a ≤ i < b` (clamped to the
list) are removed and `r` is spliced in at position `a`. -/
def pySliceAssign {α : Type u} (l : List α) (a b : Nat) (r : List α) :
    List α :=
  l.take a ++ r ++ l.drop (max a b)

/-- The two anonymizing slice assignments of `preprocess` (loader.py lines
69-72): `tokens[ss:se+1] = ['SUBJ-'+d['subj_type']] * (se-ss+1)` followed by
`tokens[os:oe+1] = ['OBJ-'+d['obj_type']] * (oe-os+1)`. -/
def anonymize_tokens (tokens : List String) (ss se os oe : Nat)
    (subj_type obj_type : String) : List String :=
  let t1 := pySliceAssign tokens ss (se + 1)
    (List.replicate ((se : Int) - (ss : Int) + 1).toNat ("SUBJ-" ++ subj_type))
  pySliceAssign t1 os (oe + 1)
    (List.replicate ((oe : Int) - (os : Int) + 1).toNat ("OBJ-" ++ obj_type))

/-- The token pipeline of `preprocess` (loader.py lines 57-72): the value the
local `tokens` holds after lowercasing (when `opt['lower']`) and
anonymization. -/
def preprocess_tokens (lower : Bool) (tokens : List String)
    (ss se os oe : Nat) (subj_type obj_type : String) : List String :=
  anonymize_tokens (if lower then tokens.map pyLower else tokens)
    ss se os oe subj_type obj_type

/-- Lines 57-72 of `preprocess` with Python aliasing made explicit through a
two-cell heap: cell `0` is the list object `d['token']`; `tokens = d['token']`
aliases it; when `opt['lower']` is set the comprehension at line 66 allocates
a fresh list (cell `1`) and rebinds the local `tokens` to it, so the slice
assignments of lines 71-72 mutate the fresh list; otherwise they mutate
cell `0` in place.  Returns the pair
(value of `d['token']` after the loop body, value of the local `tokens`). -/
def preprocess_token_effect (lower : Bool) (d_token : List String)
    (ss se os oe : Nat) (subj_type obj_type : String) :
    List String × List String :=
  let heap0 : Nat → List String := fun c => if c = 0 then d_token else []
  let tref : Nat := if lower then 1 else 0
  let heap1 : Nat → List String := fun c =>
    if lower ∧ c = 1 then d_token.map pyLower else heap0 c
  let heap2 : Nat → List String := fun c =>
    if c = tref then
      pySliceAssign (heap1 tref) ss (se + 1)
        (List.replicate ((se : Int) - (ss : Int) + 1).toNat
          ("SUBJ-" ++ subj_type))
    else heap1 c
  let heap3 : Nat → List String := fun c =>
    if c = tref then
      pySliceAssign (heap2 tref) os (oe + 1)
        (List.replicate ((oe : Int) - (os : Int) + 1).toNat
          ("OBJ-" ++ obj_type))
    else heap2 c
  (heap3 0, heap3 tref)

theorem pySliceAssign_getD {α : Type u} (l : List α) (a k : Nat) (c d : α)
    (hk : a + k ≤ l.length) (i : Nat) :
    (pySliceAssign l a (a + k) (List.replicate k c)).getD i d =
      if i < a then l.getD i d
      else if i < a + k then c
      else l.getD i d := by
  have hmax : max a (a + k) = a + k := by omega
  have hta : (l.take a).length = a := by rw [List.length_take]; omega
  rw [pySliceAssign, hmax]
  rcases lt_or_le i a with h1 | h1
  · rw [List.getD_append _ _ _ _ (by rw [List.length_append, hta]; omega),
      List.getD_append _ _ _ _ (by omega), if_pos h1]
    rcases lt_or_le i l.length with h2 | h2
    · rw [List.getD_eq_getElem (l.take a) _ (by rw [List.length_take]; omega),
        List.getD_eq_getElem l _ (by omega), List.getElem_take]
    · omega
  · rcases lt_or_le i (a + k) with h2 | h2
    · rw [List.getD_append _ _ _ _ (by
        rw [List.length_append, hta, List.length_replicate]; omega),
        List.getD_append_right _ _ _ _ (by omega), hta,
        List.getD_eq_getElem _ _ (by rw [List.length_replicate]; omega),
        List.getElem_replicate, if_neg (by omega), if_pos h2]
    · rw [List.getD_append_right _ _ _ _ (by
        rw [List.length_append, hta, List.length_replicate]; omega),
        List.length_append, hta, List.length_replicate,
        if_neg (by omega), if_neg (by omega)]
      rcases lt_or_le i l.length with h3 | h3
      · rw [List.getD_eq_getElem _ _ (by rw [List.length_drop]; omega),
          List.getD_eq_getElem _ _ h3, List.getElem_drop]
        congr 1
        omega
      · rw [List.getD_eq_default _ _ (by rw [List.length_drop]; omega),
          List.getD_eq_default _ _ (by omega)]

theorem pySliceAssign_length {α : Type u} (l : List α) (a k : Nat) (c : α)
    (hk : a + k ≤ l.length) :
    (pySliceAssign l a (a + k) (List.replicate k c)).length = l.length := by
  have hmax : max a (a + k) = a + k := by omega
  rw [pySliceAssign, hmax, List.length_append, List.length_append,
    List.length_take, List.length_replicate, List.length_drop]
  omega

/-- C4 counterexample: when the subject and object spans overlap, the object
assignment (performed second) overwrites the overlap, so not every index of
the subject span holds the subject token.  Tokens `["a","b","c"]`, subject
span `[0,1]`, object span `[1,2]`: index `1` lies in the subject span yet
ends as `"OBJ-ORG"`, not `"SUBJ-PER"`. -/
theorem anonymize_overlap_counterexample :
    preprocess_tokens false ["a", "b", "c"] 0 1 1 2 "PER" "ORG"
      = ["SUBJ-PER", "OBJ-ORG", "OBJ-ORG"]
    ∧ ("OBJ-ORG" : String) ≠ "SUBJ-PER" := by
  refine ⟨by decide, by decide⟩

/-- C4 (amended with disjoint spans): for every record whose subject span
`[ss, se]` and object span `[os, oe]` lie within the token list and do not
overlap, the anonymization step replaces every subject-span token by
`'SUBJ-'+subj_type`, every object-span token by `'OBJ-'+obj_type`, keeps the
length unchanged, and leaves every token outside the two spans unchanged (up
to lowercasing when `opt['lower']` is set). -/
theorem preprocess_tokens_spec (lower : Bool) (tokens : List String)
    (ss se os oe : Nat) (st ot : String)
    (hs : ss ≤ se) (hse : se < tokens.length)
    (ho : os ≤ oe) (hoe : oe < tokens.length)
    (hdisj : se < os ∨ oe < ss) :
    (preprocess_tokens lower tokens ss se os oe st ot).length = tokens.length
    ∧ (∀ i, ss ≤ i → i ≤ se →
        (preprocess_tokens lower tokens ss se os oe st ot).getD i ""
          = "SUBJ-" ++ st)
    ∧ (∀ i, os ≤ i → i ≤ oe →
        (preprocess_tokens lower tokens ss se os oe st ot).getD i ""
          = "OBJ-" ++ ot)
    ∧ (∀ i, i < tokens.length → (i < ss ∨ se < i) → (i < os ∨ oe < i) →
        (preprocess_tokens lower tokens ss se os oe st ot).getD i ""
          = if lower then pyLower (tokens.getD i "")
            else tokens.getD i "") := by
  have hblen : (if lower then tokens.map pyLower else tokens).length
      = tokens.length := by cases lower <;> simp
  set base := if lower then tokens.map pyLower else tokens with hbase
  set k1 : Nat := se + 1 - ss with hk1e
  set k2 : Nat := oe + 1 - os with hk2e
  have e1 : ((se : Int) - (ss : Int) + 1).toNat = k1 := by omega
  have e2 : se + 1 = ss + k1 := by omega
  have e3 : ((oe : Int) - (os : Int) + 1).toNat = k2 := by omega
  have e4 : oe + 1 = os + k2 := by omega
  have hout : preprocess_tokens lower tokens ss se os oe st ot
      = pySliceAssign
          (pySliceAssign base ss (ss + k1)
            (List.replicate k1 ("SUBJ-" ++ st)))
          os (os + k2) (List.replicate k2 ("OBJ-" ++ ot)) := by
    simp only [preprocess_tokens, anonymize_tokens, e1, e2, e3, e4, ← hbase]
  have ht1 := pySliceAssign_getD base ss k1 ("SUBJ-" ++ st) ""
    (by omega)
  have hlen1 : (pySliceAssign base ss (ss + k1)
      (List.replicate k1 ("SUBJ-" ++ st))).length = tokens.length := by
    rw [pySliceAssign_length base ss k1 _ (by omega), hblen]
  have ht2 := pySliceAssign_getD
    (pySliceAssign base ss (ss + k1) (List.replicate k1 ("SUBJ-" ++ st)))
    os k2 ("OBJ-" ++ ot) "" (by omega)
  have hbase_getD : ∀ i, i < tokens.length →
      base.getD i "" = if lower then pyLower (tokens.getD i "")
        else tokens.getD i "" := by
    intro i hi
    rw [hbase]
    cases lower
    · simp
    · simp only [if_pos]
      rw [List.getD_eq_getElem (tokens.map pyLower) _ (by simp [hi]),
        List.getElem_map, List.getD_eq_getElem tokens _ hi]
  refine ⟨?_, ?_, ?_, ?_⟩
  · rw [hout, pySliceAssign_length _ os k2 _ (by omega), hlen1]
  · intro i hi1 hi2
    rw [hout, ht2 i, ht1 i]
    split_ifs <;> first | rfl | omega
  · intro i hi1 hi2
    rw [hout, ht2 i, ht1 i]
    split_ifs <;> first | rfl | omega
  · intro i hi h1 h2
    rw [hout, ht2 i, ht1 i, hbase_getD i hi]
    split_ifs <;> first | rfl | omega

theorem preprocess_tokens_spec_witness :
    (0 ≤ 0 ∧ 0 < ["a", "b", "c", "d"].length ∧ 2 ≤ 3
     ∧ 3 < ["a", "b", "c", "d"].length ∧ ((0 : Nat) < 2 ∨ 3 < 0))
    ∧ ((preprocess_tokens false ["a", "b", "c", "d"] 0 0 2 3 "PER" "ORG").length
          = ["a", "b", "c", "d"].length
       ∧ (∀ i, 0 ≤ i → i ≤ 0 →
           (preprocess_tokens false ["a", "b", "c", "d"] 0 0 2 3 "PER" "ORG").getD i ""
             = "SUBJ-" ++ "PER")
       ∧ (∀ i, 2 ≤ i → i ≤ 3 →
           (preprocess_tokens false ["a", "b", "c", "d"] 0 0 2 3 "PER" "ORG").getD i ""
             = "OBJ-" ++ "ORG")
       ∧ (∀ i, i < ["a", "b", "c", "d"].length → (i < 0 ∨ 0 < i) → (i < 2 ∨ 3 < i) →
           (preprocess_tokens false ["a", "b", "c", "d"] 0 0 2 3 "PER" "ORG").getD i ""
             = if false then pyLower (["a", "b", "c", "d"].getD i "")
               else ["a", "b", "c", "d"].getD i "")) :=
  ⟨⟨by decide, by decide, by decide, by decide, by decide⟩,
   preprocess_tokens_spec false ["a", "b", "c", "d"] 0 0 2 3 "PER" "ORG"
     (by decide) (by decide) (by decide) (by decide) (by decide)⟩

/-- C9: the value stored in `d['token']` after the loop body of `preprocess`
is the anonymized list when `opt['lower']` is unset (the slice assignments
mutate the caller's list in place), and the untouched original when
`opt['lower']` is set (the lowercasing comprehension rebuilds the list, so
the mutations hit the fresh copy, which is what the local `tokens`
holds in both cases, lowered or not). -/
theorem preprocess_token_effect_spec (lower : Bool) (d_token : List String)
    (ss se os oe : Nat) (st ot : String) :
    preprocess_token_effect lower d_token ss se os oe st ot
      = ((if lower then d_token
          else anonymize_tokens d_token ss se os oe st ot),
         preprocess_tokens lower d_token ss se os oe st ot) := by
  cases lower
  · simp [preprocess_token_effect, preprocess_tokens, anonymize_tokens]
  · simp [preprocess_token_effect, preprocess_tokens, anonymize_tokens]

/-! ### Word dropout -/

/-- The elementwise recursion of `word_dropout` (loader.py lines 243-247):
`[UNK_ID if x != UNK_ID and np.random.random() < dropout else x
for x in tokens]`.  The `np.random.random()` values are supplied by the
oracle `draws`, consumed at position `k`; Python's `and` short-circuits, so a
draw is consumed only when `x != UNK_ID`. -/
def word_dropout_from (dropout : ℚ) (draws : Nat → ℚ) :
    List Int → Nat → List Int
  | [], _ => []
  | x :: rest, k =>
    if x ≠ UNK_ID then
      (if draws k < dropout then UNK_ID else x)
        :: word_dropout_from dropout draws rest (k + 1)
    else
      x :: word_dropout_from dropout draws rest k

/-- `word_dropout` (loader.py lines 243-247). -/
def word_dropout (tokens : List Int) (dropout : ℚ) (draws : Nat → ℚ) :
    List Int :=
  word_dropout_from dropout draws tokens 0

/-- Lines 180-185 of `__getitem__`: outside evaluation mode every (sorted)
token sequence goes through `word_dropout` (each sentence with its own slice
of the RNG stream, modelled by a per-sentence oracle); in evaluation mode the
token sequences are used as-is. -/
def batch_words (evalMode : Bool) (sents : List (List Int)) (dropout : ℚ)
    (draws : Nat → Nat → ℚ) : List (List Int) :=
  if evalMode then sents
  else sents.mapIdx (fun i sent => word_dropout sent dropout (draws i))

theorem word_dropout_from_length (p : ℚ) (draws : Nat → ℚ) :
    ∀ (toks : List Int) (k : Nat),
      (word_dropout_from p draws toks k).length = toks.length := by
  intro toks
  induction toks with
  | nil => intro k; rfl
  | cons x rest ih =>
    intro k
    rw [word_dropout_from]
    by_cases hx : x = UNK_ID
    · rw [if_neg (by simp [hx]), List.length_cons, List.length_cons, ih]
    · rw [if_pos hx, List.length_cons, List.length_cons, ih]

theorem word_dropout_from_getD (p : ℚ) (draws : Nat → ℚ) :
    ∀ (toks : List Int) (k i : Nat), i < toks.length →
      ((word_dropout_from p draws toks k).getD i 0 = toks.getD i 0
       ∨ (word_dropout_from p draws toks k).getD i 0 = UNK_ID)
      ∧ (toks.getD i 0 = UNK_ID →
          (word_dropout_from p draws toks k).getD i 0 = UNK_ID) := by
  intro toks
  induction toks with
  | nil => intro k i hi; simp at hi
  | cons x rest ih =>
    intro k i hi
    rw [word_dropout_from]
    by_cases hx : x = UNK_ID
    · rw [if_neg (by simp [hx])]
      match i with
      | 0 => simp [hx]
      | i + 1 =>
        simp only [List.getD_cons_succ]
        exact ih k i (by simpa using hi)
    · rw [if_pos hx]
      match i with
      | 0 =>
        constructor
        · by_cases hdraw : draws k < p
          · right; simp [hdraw]
          · left; simp [hdraw]
        · intro h0
          exact absurd (by simpa using h0) hx
      | i + 1 =>
        simp only [List.getD_cons_succ]
        exact ih (k + 1) i (by simpa using hi)

theorem word_dropout_from_zero (draws : Nat → ℚ) (hd : ∀ i, 0 ≤ draws i) :
    ∀ (toks : List Int) (k : Nat), word_dropout_from 0 draws toks k = toks := by
  intro toks
  induction toks with
  | nil => intro k; rfl
  | cons x rest ih =>
    intro k
    rw [word_dropout_from]
    by_cases hx : x = UNK_ID
    · rw [if_neg (by simp [hx]), ih]
    · rw [if_pos hx, if_neg (not_lt.mpr (hd k)), ih]

/-- C6: word dropout is the only transformation of the token field and only
runs outside evaluation mode.  On every token-id sequence it preserves the
length, maps every element either to itself or to `UNK_ID`, never changes an
element already equal to `UNK_ID`, and with dropout probability `0` returns
the sequence unchanged (`np.random.random()` draws are non-negative); in
evaluation mode the token sequences are used as-is. -/
theorem word_dropout_spec (tokens : List Int) (p : ℚ) (draws : Nat → ℚ)
    (hd : ∀ i, 0 ≤ draws i) :
    (word_dropout tokens p draws).length = tokens.length
    ∧ (∀ i, i < tokens.length →
        (word_dropout tokens p draws).getD i 0 = tokens.getD i 0
        ∨ (word_dropout tokens p draws).getD i 0 = UNK_ID)
    ∧ (∀ i, i < tokens.length → tokens.getD i 0 = UNK_ID →
        (word_dropout tokens p draws).getD i 0 = UNK_ID)
    ∧ (p = 0 → word_dropout tokens p draws = tokens)
    ∧ (∀ (sents : List (List Int)) (draws2 : Nat → Nat → ℚ),
        batch_words true sents p draws2 = sents) := by
  refine ⟨word_dropout_from_length p draws tokens 0,
    fun i hi => (word_dropout_from_getD p draws tokens 0 i hi).1,
    fun i hi h0 => (word_dropout_from_getD p draws tokens 0 i hi).2 h0,
    fun hp => by rw [word_dropout, hp, word_dropout_from_zero draws hd],
    fun sents draws2 => by rw [batch_words, if_pos rfl]⟩

theorem word_dropout_spec_witness :
    (∀ i : Nat, (0 : ℚ) ≤ (fun _ : Nat => (0 : ℚ)) i)
    ∧ ((word_dropout [3, 1, 4] (1 / 2) (fun _ => 0)).length
          = [3, 1, 4].length
       ∧ (∀ i, i < [3, 1, 4].length →
            (word_dropout [3, 1, 4] (1 / 2) (fun _ => 0)).getD i 0
              = [3, 1, 4].getD i 0
            ∨ (word_dropout [3, 1, 4] (1 / 2) (fun _ => 0)).getD i 0 = UNK_ID)
       ∧ (∀ i, i < [3, 1, 4].length → [3, 1, 4].getD i 0 = UNK_ID →
            (word_dropout [3, 1, 4] (1 / 2) (fun _ => 0)).getD i 0 = UNK_ID)
       ∧ ((1 : ℚ) / 2 = 0 →
            word_dropout [3, 1, 4] (1 / 2) (fun _ => 0) = [3, 1, 4])
       ∧ (∀ (sents : List (List Int)) (draws2 : Nat → Nat → ℚ),
            batch_words true sents (1 / 2) draws2 = sents)) :=
  ⟨fun _ => le_refl 0,
   word_dropout_spec [3, 1, 4] (1 / 2) (fun _ => 0) (fun _ => le_refl 0)⟩

/-! ### Sorting for packing: `sort_all` and the unsort step of `predict` -/

/-- One preprocessed example: the 8-tuple appended by `preprocess`
(loader.py line 107). -/
structure Example where
  tokens : List Int
  pos : List Int
  ner : List Int
  deprel : List Int
  subj_positions : List Int
  obj_positions : List Int
  inst_position : List Int
  relation : Int
deriving DecidableEq

/-- The comparison `sorted(..., reverse=True)` performs in `sort_all`
(loader.py line 239): rows `(len, original index, fields...)` are tuples
compared lexicographically, in reverse; the `(len, index)` pairs are pairwise
distinct, so the comparison never reaches the remaining components. -/
def desc_le {α : Type u} (a b : Nat × Nat × α) : Bool :=
  decide (b.1 < a.1 ∨ (b.1 = a.1 ∧ b.2.1 ≤ a.2.1))

/-- The rows `zip(*unsorted_all)` builds in `sort_all` (loader.py line 238):
`(lens[i], i, example_i)`.  `sort_all` receives the batch field-major and
re-transposes after sorting; composed with the `zip(*batch)` transposes of
`__getitem__`, the net effect is example-major, which is how it is embedded
here. -/
def pack_rows {α : Type u} (lens : List Nat) (batch : List α) :
    List (Nat × Nat × α) :=
  lens.zip ((List.range lens.length).zip batch)

/-- `sort_all` (loader.py lines 234-240): sort the rows in descending order
and unpack them into the sorted batch and the original indices. -/
def sort_all {α : Type u} (batch : List α) (lens : List Nat) :
    List α × List Nat :=
  let sorted_rows := (pack_rows lens batch).mergeSort desc_le
  (sorted_rows.map (fun r => r.2.2), sorted_rows.map (fun r => r.2.1))

/-- The unsorting step of `RelationModel.predict` (rnn.py lines 92-93):
`zip(*sorted(zip(orig_idx, predictions, probs)))` sorts the triples in
ascending lexicographic order and unpacks; the original indices are pairwise
distinct, so the comparison never reaches the later components. -/
def unsort_by_idx {α : Type u} (orig_idx : List Nat) (xs : List α) :
    List α :=
  ((orig_idx.zip xs).mergeSort (fun a b => decide (a.1 ≤ b.1))).map
    (fun p => p.2)

theorem sort_all_eq {α : Type u} (batch : List α) (lens : List Nat) :
    sort_all batch lens
      = (((pack_rows lens batch).mergeSort desc_le).map (fun r => r.2.2),
         ((pack_rows lens batch).mergeSort desc_le).map (fun r => r.2.1)) :=
  rfl

theorem pack_rows_length {α : Type u} (batch : List α) (f : α → Nat) :
    (pack_rows (batch.map f) batch).length = batch.length := by
  simp [pack_rows, List.length_zip]

theorem pack_rows_getElem {α : Type u} (batch : List α) (f : α → Nat)
    (i : Nat) (hi : i < (pack_rows (batch.map f) batch).length) :
    (pack_rows (batch.map f) batch).get ⟨i, hi⟩
      = (f (batch.get ⟨i, by rw [pack_rows_length batch f] at hi; exact hi⟩),
         i,
         batch.get ⟨i, by rw [pack_rows_length batch f] at hi; exact hi⟩) := by
  simp [pack_rows, List.get_eq_getElem, List.getElem_zip, List.getElem_map,
    List.getElem_range]

theorem pack_rows_mem {α : Type u} (batch : List α) (f : α → Nat)
    (r : Nat × Nat × α) (hr : r ∈ pack_rows (batch.map f) batch) :
    r.1 = f r.2.2 ∧ batch[r.2.1]? = some r.2.2 := by
  obtain ⟨i, hi, hieq⟩ := List.mem_iff_getElem.mp hr
  have heq := pack_rows_getElem batch f i hi
  rw [List.get_eq_getElem, List.get_eq_getElem] at heq
  rw [heq] at hieq
  subst hieq
  refine ⟨rfl, ?_⟩
  exact List.getElem?_eq_getElem ..

theorem desc_le_trans {α : Type u} :
    ∀ (a b c : Nat × Nat × α),
      desc_le a b = true → desc_le b c = true → desc_le a c = true := by
  intro a b c hab hbc
  simp only [desc_le, decide_eq_true_eq] at hab hbc ⊢
  omega

theorem desc_le_total {α : Type u} :
    ∀ (a b : Nat × Nat × α), (desc_le a b || desc_le b a) = true := by
  intro a b
  simp only [desc_le, Bool.or_eq_true, decide_eq_true_eq]
  omega

theorem sort_all_sorted {α : Type u} (batch : List α) (f : α → Nat) :
    (((sort_all batch (batch.map f)).1).map f).Sorted (fun a b => b ≤ a) := by
  rw [sort_all_eq, List.map_map]
  have hperm := List.mergeSort_perm (pack_rows (batch.map f) batch) desc_le
  have hmem : ∀ r ∈ (pack_rows (batch.map f) batch).mergeSort desc_le,
      (f ∘ fun r => r.2.2) r = r.1 := by
    intro r hr
    exact (pack_rows_mem batch f r (hperm.mem_iff.mp hr)).1.symm
  rw [List.map_congr_left hmem]
  have hsorted := @List.sorted_mergeSort (Nat × Nat × α) desc_le
    (desc_le_trans (α := α)) (desc_le_total (α := α))
    (pack_rows (batch.map f) batch)
  rw [List.Sorted, List.pairwise_map]
  exact hsorted.imp (fun h => by
    simp only [desc_le, decide_eq_true_eq] at h
    omega)

theorem sort_all_orig_idx {α : Type u} (batch : List α) (f : α → Nat) :
    ∀ p ∈ (sort_all batch (batch.map f)).2.zip
        (sort_all batch (batch.map f)).1,
      batch[p.1]? = some p.2 := by
  intro p hp
  rw [sort_all_eq] at hp
  simp only [List.zip_map'] at hp
  obtain ⟨r, hr, rfl⟩ := List.mem_map.mp hp
  exact (pack_rows_mem batch f r
    ((List.mergeSort_perm _ desc_le).mem_iff.mp hr)).2

theorem sort_all_unsort {α : Type u} (batch : List α) (f : α → Nat) :
    unsort_by_idx (sort_all batch (batch.map f)).2
      (sort_all batch (batch.map f)).1 = batch := by
  rw [sort_all_eq, unsort_by_idx]
  simp only [List.zip_map']
  have heta : (fun (r : Nat × Nat × α) => (r.2.1, r.2.2))
      = fun (r : Nat × Nat × α) => r.2 := rfl
  rw [heta]
  have hq : (((pack_rows (batch.map f) batch).mergeSort desc_le).map
      (fun r => r.2)).Perm ((List.range batch.length).zip batch) := by
    have h2 := (List.mergeSort_perm (pack_rows (batch.map f) batch)
      desc_le).map (fun r => r.2)
    have hsnd : (fun (r : Nat × Nat × α) => r.2) = Prod.snd := rfl
    have h3 : (pack_rows (batch.map f) batch).map (fun r => r.2)
        = (List.range batch.length).zip batch := by
      rw [pack_rows, hsnd, List.map_snd_zip]
      · rw [List.length_map]
      · simp only [List.length_zip, List.length_map, List.length_range]
        omega
    rw [h3] at h2
    exact h2
  have hm_perm : ((((pack_rows (batch.map f) batch).mergeSort desc_le).map
      (fun r => r.2)).mergeSort (fun a b => decide (a.1 ≤ b.1))).Perm
        ((List.range batch.length).zip batch) :=
    (List.mergeSort_perm _ _).trans hq
  have hm_sorted := @List.sorted_mergeSort (Nat × α)
    (fun a b => decide (a.1 ≤ b.1))
    (fun a b c hab hbc => by
      simp only [decide_eq_true_eq] at hab hbc ⊢
      omega)
    (fun a b => by
      simp only [Bool.or_eq_true, decide_eq_true_eq]
      omega)
    (((pack_rows (batch.map f) batch).mergeSort desc_le).map (fun r => r.2))
  have hm_le : ((((pack_rows (batch.map f) batch).mergeSort desc_le).map
      (fun r => r.2)).mergeSort (fun a b => decide (a.1 ≤ b.1))).Pairwise
        (fun a b => a.1 ≤ b.1) :=
    hm_sorted.imp (fun h => by simpa using h)
  have hm_fst_perm : (((((pack_rows (batch.map f) batch).mergeSort
      desc_le).map (fun r => r.2)).mergeSort
        (fun a b => decide (a.1 ≤ b.1))).map Prod.fst).Perm
          (List.range batch.length) := by
    have h4 := hm_perm.map Prod.fst
    rw [List.map_fst_zip _ _ (by rw [List.length_range])] at h4
    exact h4
  have hm_nodup := hm_fst_perm.nodup_iff.mpr (List.nodup_range batch.length)
  have hm_ne : ((((pack_rows (batch.map f) batch).mergeSort desc_le).map
      (fun r => r.2)).mergeSort (fun a b => decide (a.1 ≤ b.1))).Pairwise
        (fun a b => Prod.fst a ≠ Prod.fst b) :=
    List.pairwise_map.mp hm_nodup
  have hm_lt : ((((pack_rows (batch.map f) batch).mergeSort desc_le).map
      (fun r => r.2)).mergeSort (fun a b => decide (a.1 ≤ b.1))).Pairwise
        (fun a b => a.1 < b.1) :=
    (hm_le.and hm_ne).imp (fun h => lt_of_le_of_ne h.1 h.2)
  have htarget_lt : (((List.range batch.length).zip batch)).Pairwise
      (fun a b => a.1 < b.1) := by
    rw [List.pairwise_iff_getElem]
    intro i j hi hj hij
    have hzl : ((List.range batch.length).zip batch).length
        = batch.length := by
      rw [List.length_zip, List.length_range]
      omega
    rw [List.getElem_zip, List.getElem_zip]
    simp only [List.getElem_range]
    exact hij
  have hanti : IsAntisymm (Nat × α) (fun a b => a.1 < b.1) :=
    ⟨fun a b h1 h2 => absurd (h1.trans h2) (lt_irrefl _)⟩
  have hfinal := @List.eq_of_perm_of_sorted (Nat × α)
    (fun a b => a.1 < b.1) hanti _ _ hm_perm hm_lt htarget_lt
  rw [hfinal]
  have hsnd : (fun (p : Nat × α) => p.2) = Prod.snd := rfl
  rw [hsnd, List.map_snd_zip _ _ (by rw [List.length_range])]

/-- C2: `__getitem__` sorts the eight per-example fields in descending order
of token-sequence length together with `orig_idx`, the original positions of
the examples in sorted order (each sorted entry is the batch entry at its
`orig_idx`); re-sorting the results by ascending `orig_idx`, as `predict`
does when `unsort` is `True`, recovers exactly the original pre-sort order,
for every batch and every length profile, ties included. -/
theorem sort_unsort_roundtrip (batch : List Example) :
    (((sort_all batch (batch.map (fun ex => ex.tokens.length))).1.map
        (fun ex => ex.tokens.length)).Sorted (fun a b => b ≤ a))
    ∧ (∀ p ∈ (sort_all batch (batch.map (fun ex => ex.tokens.length))).2.zip
          (sort_all batch (batch.map (fun ex => ex.tokens.length))).1,
        batch[p.1]? = some p.2)
    ∧ unsort_by_idx
        (sort_all batch (batch.map (fun ex => ex.tokens.length))).2
        (sort_all batch (batch.map (fun ex => ex.tokens.length))).1
      = batch :=
  ⟨sort_all_sorted batch (fun ex => ex.tokens.length),
   sort_all_orig_idx batch (fun ex => ex.tokens.length),
   sort_all_unsort batch (fun ex => ex.tokens.length)⟩

/-! ### `__getitem__`: key handling and batch assembly -/

inductive PyErr where
  | typeError
  | indexError
  | assertionError
deriving DecidableEq

/-- The ten batch tensors `__getitem__` returns (loader.py line 201). -/
structure BatchOut where
  words : List (List Int)
  masks : List (List Bool)
  pos : List (List Int)
  ner : List (List Int)
  deprel : List (List Int)
  subj_positions : List (List Int)
  obj_positions : List (List Int)
  src_pos : List (List Int)
  rels : List Int
  orig_idx : List Nat
deriving DecidableEq

/-- The loader state `__getitem__` reads: the chunked data, the evaluation
flag and `opt['word_dropout']`. -/
structure Loader where
  data : List (List Example)
  evalMode : Bool
  word_dropout_p : ℚ

/-- The batch assembly of `__getitem__` (loader.py lines 171-201): transpose,
sort all fields by descending token length, apply word dropout to the token
field outside evaluation mode, pad every field into a `batch_size`-row
matrix, build the mask by comparing the padded words against `0`
(`torch.eq(words, 0)`, line 198) and collect the relation labels. -/
def make_batch (batch : List Example) (evalMode : Bool) (dropout : ℚ)
    (draws : Nat → Nat → ℚ) : BatchOut :=
  let lens := batch.map (fun ex => ex.tokens.length)
  let sb := (sort_all batch lens).1
  let oi := (sort_all batch lens).2
  let bs := batch.length
  let words0 := batch_words evalMode (sb.map Example.tokens) dropout draws
  let words := get_long_tensor words0 bs
  { words := words
    masks := words.map (fun row => row.map (fun v => decide (v = 0)))
    pos := get_long_tensor (sb.map Example.pos) bs
    ner := get_long_tensor (sb.map Example.ner) bs
    deprel := get_long_tensor (sb.map Example.deprel) bs
    subj_positions := get_long_tensor (sb.map Example.subj_positions) bs
    obj_positions := get_long_tensor (sb.map Example.obj_positions) bs
    src_pos := get_long_tensor (sb.map Example.inst_position) bs
    rels := sb.map Example.relation
    orig_idx := oi }

/-- `__getitem__` (loader.py lines 164-201).  A non-`int` key (`Sum.inr`)
raises `TypeError` (Python `bool`s count as `int`s); an `int` key outside
`[0, len(self.data))` raises `IndexError`; the `assert len(batch) == 8` can
fail only on an empty batch, where `zip(*batch)` yields no columns — a state
`__init__` never produces. -/
def DataLoader_getitem (L : Loader) (draws : Nat → Nat → ℚ)
    (key : Int ⊕ Unit) : Except PyErr BatchOut :=
  match key with
  | Sum.inr _ => Except.error PyErr.typeError
  | Sum.inl i =>
    if i < 0 ∨ (L.data.length : Int) ≤ i then Except.error PyErr.indexError
    else
      let batch := L.data.getD i.toNat []
      if batch.length = 0 then Except.error PyErr.assertionError
      else Except.ok (make_batch batch L.evalMode L.word_dropout_p draws)

theorem chunk_mem_ne_nil {α : Type u} (l : List α) (b : Nat) :
    ∀ c ∈ chunk l (b + 1), c ≠ [] := by
  suffices h : ∀ (n : Nat) (l : List α), l.length ≤ n →
      ∀ c ∈ chunk l (b + 1), c ≠ [] from h l.length l le_rfl
  intro n
  induction n with
  | zero =>
    intro l hl c hc
    have : l = [] := List.eq_nil_of_length_eq_zero (by omega)
    subst this
    rw [chunk_nil] at hc
    cases hc
  | succ n ih =>
    intro l hl c hc
    match l with
    | [] =>
      rw [chunk_nil] at hc
      cases hc
    | x :: xs =>
      rw [chunk_cons] at hc
      rcases List.mem_cons.mp hc with rfl | hc'
      · rw [List.take_succ_cons]
        exact List.cons_ne_nil _ _
      · refine ih _ ?_ c hc'
        simp only [List.length_drop, List.length_cons] at hl ⊢
        omega

/-- C8: on a loader built by `__init__` (data chunked with a positive batch
size), `__getitem__` raises `TypeError` for every non-`int` key, raises
`IndexError` exactly when an `int` key is negative or at least the number of
batches (no Python-style negative indexing), and returns the ten batch
tensors for every remaining key. -/
theorem getitem_key_handling (ex : List Example) (bs : Nat) (ev : Bool)
    (p : ℚ) (draws : Nat → Nat → ℚ) (hbs : 0 < bs) :
    (∀ u : Unit,
        DataLoader_getitem ⟨chunk ex bs, ev, p⟩ draws (Sum.inr u)
          = Except.error PyErr.typeError)
    ∧ (∀ i : Int,
        DataLoader_getitem ⟨chunk ex bs, ev, p⟩ draws (Sum.inl i)
            = Except.error PyErr.indexError
          ↔ i < 0 ∨ ((chunk ex bs).length : Int) ≤ i)
    ∧ (∀ i : Int, 0 ≤ i → i < ((chunk ex bs).length : Int) →
        DataLoader_getitem ⟨chunk ex bs, ev, p⟩ draws (Sum.inl i)
          = Except.ok
              (make_batch ((chunk ex bs).getD i.toNat []) ev p draws)) := by
  obtain ⟨b, rfl⟩ : ∃ b, bs = b + 1 := ⟨bs - 1, by omega⟩
  have hne : ∀ i : Int, 0 ≤ i → i < ((chunk ex (b + 1)).length : Int) →
      (chunk ex (b + 1)).getD i.toNat [] ≠ [] := by
    intro i h0 hlt
    have hi : i.toNat < (chunk ex (b + 1)).length := by omega
    rw [List.getD_eq_getElem _ _ hi]
    exact chunk_mem_ne_nil ex b _ (List.getElem_mem ..)
  refine ⟨fun u => rfl, ?_, ?_⟩
  · intro i
    by_cases hc : i < 0 ∨ ((chunk ex (b + 1)).length : Int) ≤ i
    · simp only [DataLoader_getitem, if_pos hc]
      exact iff_of_true trivial hc
    · simp only [DataLoader_getitem, if_neg hc]
      rw [if_neg (by simpa using hne i (by omega) (by omega))]
      exact iff_of_false (by simp) hc
  · intro i h0 hlt
    simp only [DataLoader_getitem]
    rw [if_neg (by omega), if_neg (by simpa using hne i h0 hlt)]

/-- A concrete one-sentence example used by the `__getitem__` witness. -/
def exampleOne : Example := ⟨[3], [1], [1], [1], [0], [0], [1], 2⟩

theorem getitem_key_handling_witness :
    (0 < 1)
    ∧ ((∀ u : Unit,
          DataLoader_getitem ⟨chunk [exampleOne] 1, true, 0⟩
              (fun _ _ => 0) (Sum.inr u)
            = Except.error PyErr.typeError)
       ∧ (∀ i : Int,
          DataLoader_getitem ⟨chunk [exampleOne] 1, true, 0⟩
              (fun _ _ => 0) (Sum.inl i)
              = Except.error PyErr.indexError
            ↔ i < 0 ∨ (((chunk [exampleOne] 1).length : Int) ≤ i))
       ∧ (∀ i : Int, 0 ≤ i → i < ((chunk [exampleOne] 1).length : Int) →
          DataLoader_getitem ⟨chunk [exampleOne] 1, true, 0⟩
              (fun _ _ => 0) (Sum.inl i)
            = Except.ok
                (make_batch ((chunk [exampleOne] 1).getD i.toNat [])
                  true 0 (fun _ _ => 0)))) :=
  ⟨by decide,
   getitem_key_handling [exampleOne] 1 true 0 (fun _ _ => 0) (by decide)⟩

end TacLoader
